import Mathlib

/-!
Verification development for the numerblox prediction post-processing engine
(`numerai_blocks/postprocessing.py`): feature neutralization, feature
penalization, rank-gaussianization, era partitioning/recombination and the
dataset-snapshot column updates, embedded shallowly in Lean.
-/

namespace NumerBlocks

/-! ## Constructor validation

`FeatureNeutralizer.__init__` checks `0. <= proportion <= 1.` and
`FeaturePenalizer.__init__` checks `0. <= max_exposure <= 1.`; a failing
check raises, a passing check stores the configuration. We embed each
constructor as a function into `Except String`. -/

/-- Configuration stored by a successfully constructed `FeatureNeutralizer`. -/
structure FNConfig where
  feature_names : List String
  pred_name : String
  proportion : ℚ
  new_col_name : String
deriving Repr, DecidableEq

/-- Embedding of `FeatureNeutralizer.__init__`: the constructor asserts
`0 ≤ proportion ≤ 1` and otherwise stores the fields, deriving
`new_col_name = pred_name + "_neutralized_" + proportion`. -/
def featureNeutralizerInit (feature_names : List String) (pred_name : String)
    (proportion : ℚ) : Except String FNConfig :=
  if 0 ≤ proportion ∧ proportion ≤ 1 then
    Except.ok
      { feature_names := feature_names
        pred_name := pred_name
        proportion := proportion
        new_col_name := pred_name ++ "_neutralized_" ++ toString proportion }
  else
    Except.error "'proportion' should be a float in range [0...1]."

/-- Configuration stored by a successfully constructed `FeaturePenalizer`. -/
structure FPConfig where
  model_list : List String
  max_exposure : ℚ
  risky_feature_names : List String
  pred_name : String
deriving Repr, DecidableEq

/-- Embedding of `FeaturePenalizer.__init__`: the constructor asserts
`0 ≤ max_exposure ≤ 1` and otherwise stores the fields. -/
def featurePenalizerInit (model_list : List String) (max_exposure : ℚ)
    (risky_feature_names : List String) (pred_name : String) :
    Except String FPConfig :=
  if 0 ≤ max_exposure ∧ max_exposure ≤ 1 then
    Except.ok
      { model_list := model_list
        max_exposure := max_exposure
        risky_feature_names := risky_feature_names
        pred_name := pred_name }
  else
    Except.error "'max_exposure' should be a float in range [0...1]."

/-! ## The Moore-Penrose pseudo-inverse

`FeatureNeutralizer._neutralize` calls `np.linalg.pinv(exposures)`, which is
specified to return the unique Moore-Penrose pseudo-inverse.  We characterise
it by the four Penrose conditions, and give an explicit construction for
one-row exposure matrices. -/

/-- The four Penrose conditions: `P` is the Moore-Penrose pseudo-inverse of
`E`. -/
def IsMPInv {α : Type} [Field α] {n m : ℕ} (E : Matrix (Fin n) (Fin m) α)
    (P : Matrix (Fin m) (Fin n) α) : Prop :=
  E * P * E = E ∧ P * E * P = P ∧
    (E * P).transpose = E * P ∧ (P * E).transpose = P * E

/-- Explicit pseudo-inverse of a one-row matrix: the transposed row divided
by its squared norm (the zero matrix when the row is zero). -/
def pinv1 {m : ℕ} (E : Matrix (Fin 1) (Fin m) ℚ) : Matrix (Fin m) (Fin 1) ℚ :=
  Matrix.of fun j i => E i j / ∑ k, E 0 k * E 0 k

/-! ## The penalizer training loop

`FeaturePenalizer._train_loop` runs
`for i in range(1000000): loss, grads = body(...); apply_gradients(...);
if loss < 1e-7: break`.  One iteration computes the loss at the current
weights and then updates the weights; we abstract an iteration as a step
function `S → ℚ × S` returning that loss and the updated state. -/

/-- The convergence tolerance `1e-7` hard-coded in `_train_loop`. -/
def trainTol : ℚ := 1 / 10000000

/-- The iteration budget `range(1000000)` hard-coded in `_train_loop`. -/
def trainBudget : ℕ := 1000000

/-- Fuel-indexed embedding of the body of `_train_loop`: runs `step` until
either the fuel runs out or the loss of an iteration falls below `trainTol`;
returns the number of iterations performed and the final state.  The
gradient update of the breaking iteration is still applied, matching the
`apply_gradients` call placed before the `break` test. -/
def trainLoopAux {S : Type} (step : S → ℚ × S) : ℕ → S → ℕ × S
  | 0, s => (0, s)
  | fuel + 1, s =>
    let ls := step s
    if ls.1 < trainTol then (1, ls.2)
    else
      let r := trainLoopAux step fuel ls.2
      (r.1 + 1, r.2)

/-- Embedding of `FeaturePenalizer._train_loop`. -/
def trainLoop {S : Type} (step : S → ℚ × S) (s : S) : ℕ × S :=
  trainLoopAux step trainBudget s

/-- State after `k` gradient updates of the training loop. -/
def trainState {S : Type} (step : S → ℚ × S) : ℕ → S → S
  | 0, s => s
  | k + 1, s => trainState step k (step s).2

/-- Loss computed by iteration `k` (0-based) of the training loop. -/
def trainLoss {S : Type} (step : S → ℚ × S) (s : S) (k : ℕ) : ℚ :=
  (step (trainState step k s)).1

/-! ## `reduce_exposure` with a zero-column exposure matrix

`FeaturePenalizer.reduce_exposure` returns
`pred[:, None] - model(feats)` where `model` is a bias-free keras
`LinearModel` applied to `feats = features - 0.5`; its output on row `i` is
`∑ j, (features i j - 1/2) * w j` for the kernel weights `w`. -/

/-! ## Means, standard deviations, rescalings and neutralization

`FeatureNeutralizer._neutralize` divides by the pandas sample standard
deviation (`DataFrame.std`, `ddof = 1`); the penalization path divides by
`tf.math.reduce_std` (population standard deviation), subtracts
`tf.reduce_min` and divides by `tf.reduce_max`; the neutralization path is
finally passed through `sklearn.preprocessing.MinMaxScaler`. -/

/-- Mean of a vector. -/
noncomputable def vecMean {n : ℕ} (x : Fin n → ℝ) : ℝ := (∑ i, x i) / n

/-- pandas sample variance (`DataFrame.std` squared, `ddof = 1`). -/
noncomputable def pdVar {n : ℕ} (x : Fin n → ℝ) : ℝ :=
  (∑ i, (x i - vecMean x) ^ 2) / ((n : ℝ) - 1)

/-- pandas sample standard deviation (`DataFrame.std`). -/
noncomputable def pdStd {n : ℕ} (x : Fin n → ℝ) : ℝ := Real.sqrt (pdVar x)

/-- Population variance (`tf.math.reduce_std` squared). -/
noncomputable def tfVar {n : ℕ} (x : Fin n → ℝ) : ℝ :=
  (∑ i, (x i - vecMean x) ^ 2) / n

/-- Population standard deviation (`tf.math.reduce_std`). -/
noncomputable def tfStd {n : ℕ} (x : Fin n → ℝ) : ℝ := Real.sqrt (tfVar x)

/-- Minimum entry of a nonempty vector (`tf.reduce_min`). -/
noncomputable def vecMin {n : ℕ} (x : Fin (n + 1) → ℝ) : ℝ :=
  Finset.univ.inf' Finset.univ_nonempty x

/-- Maximum entry of a nonempty vector (`tf.reduce_max`). -/
noncomputable def vecMax {n : ℕ} (x : Fin (n + 1) → ℝ) : ℝ :=
  Finset.univ.sup' Finset.univ_nonempty x

/-- Embedding of `FeatureNeutralizer._neutralize`:
`scores = scores - proportion * exposures.dot(pinv(exposures).dot(scores))`
followed by `scores / scores.std()`.  The pseudo-inverse `P` is passed
explicitly; the theorems constrain it by the Penrose conditions that
`np.linalg.pinv` guarantees. -/
noncomputable def neutralize {n m : ℕ} (proportion : ℝ) (s : Fin n → ℝ)
    (E : Matrix (Fin n) (Fin m) ℝ) (P : Matrix (Fin m) (Fin n) ℝ) :
    Fin n → ℝ :=
  let t : Fin n → ℝ := fun i => s i - proportion * E.mulVec (P.mulVec s) i
  fun i => t i / pdStd t

/-- Final rescaling of the penalization path
(`scores /= tf.math.reduce_std(scores); scores -= tf.reduce_min(scores);
scores /= tf.reduce_max(scores)`). -/
noncomputable def penalRescale {n : ℕ} (x : Fin (n + 1) → ℝ) :
    Fin (n + 1) → ℝ :=
  let y : Fin (n + 1) → ℝ := fun i => x i / tfStd x
  let z : Fin (n + 1) → ℝ := fun i => y i - vecMin y
  fun i => z i / vecMax z

/-- `sklearn.preprocessing.MinMaxScaler().fit_transform` on one column with
the default `(0, 1)` feature range: `(x - min) / (max - min)`, a zero data
range being replaced by scale `1`. -/
noncomputable def minMaxScale {n : ℕ} (x : Fin (n + 1) → ℝ) :
    Fin (n + 1) → ℝ :=
  let d := vecMax x - vecMin x
  let s := if d = 0 then 1 else d
  fun i => (x i - vecMin x) / s

/-- Squared Euclidean norm. -/
noncomputable def sqNorm {n : ℕ} (v : Fin n → ℝ) : ℝ :=
  Matrix.dotProduct v v

/-! ## Dataset snapshot updates

`FeatureNeutralizer.transform` executes
`dataset.dataf.loc[:, self.new_col_name] = values` — an in-place column
assignment on the *input* dataset's dataframe — and then returns
`Dataset(**dataset.__dict__)`, whose `dataf` entry is that same mutated
dataframe; `FeaturePenalizer.transform` does the same with its column name.
We model a dataframe as an ordered association list of named columns and
the call's effect as the pair (caller's dataframe after the call,
dataframe held by the returned dataset). -/

/-- A dataframe: ordered, named columns of rational values. -/
abbrev Dataframe := List (String × List ℚ)

/-- `df.loc[:, name] = vals`: overwrite column `name` in place if present,
else append it as a new last column. -/
def setColumn (df : Dataframe) (name : String) (vals : List ℚ) : Dataframe :=
  if df.any (fun c => c.1 = name) then
    df.map (fun c => if c.1 = name then (name, vals) else c)
  else df ++ [(name, vals)]

/-- Column lookup by name. -/
def getColumn (df : Dataframe) (name : String) : Option (List ℚ) :=
  (df.find? (fun c => c.1 = name)).map Prod.snd

/-- Effect of a processor's `transform` on the dataframes: the new
prediction column is written into the input dataset's dataframe in place,
and the returned `Dataset(**dataset.__dict__)` carries that same mutated
dataframe. -/
def transformEffect (df : Dataframe) (new_col : String) (vals : List ℚ) :
    Dataframe × Dataframe :=
  (setColumn df new_col vals, setColumn df new_col vals)

/-! ## Era partitioning and recombination

`FeaturePenalizer.reduce_all_exposures` iterates `df[era_col].unique()`
(first-appearance order), selects `df[df[era_col] == era]` for each era,
processes that era's scores, appends the result to a list, and finally
builds `pd.DataFrame(np.concatenate(neutralized), columns=[column],
index=df.index)` — the concatenated era-grouped column is assigned to the
original rows positionally.  We model a dataset as a list of
`(era, score)` rows and keep the per-era transform abstract. -/

/-- Era keys in first-appearance order, as `df[era_col].unique()` returns
them. -/
def uniqueFirst : List ℕ → List ℕ
  | [] => []
  | e :: rest => e :: uniqueFirst (rest.filter (fun x => x ≠ e))
termination_by l => l.length
decreasing_by simp; exact Nat.lt_succ_of_le (List.length_filter_le _ _)

/-- The score column of era `e`, in original relative row order
(`df_era = df[df[era_col] == era]`). -/
def selectEra (rows : List (ℕ × ℚ)) (e : ℕ) : List ℚ :=
  (rows.filter (fun r => r.1 = e)).map Prod.snd

/-- Partition-process-recombine skeleton of `reduce_all_exposures`: each
first-appearance-unique era's scores are processed by `f` and the per-era
outputs are concatenated in that era order; the column is then assigned to
the dataframe's rows positionally. -/
def reduceAllSkeleton (f : ℕ → List ℚ → List ℚ) (rows : List (ℕ × ℚ)) :
    List ℚ :=
  ((uniqueFirst (rows.map Prod.fst)).map (fun e => f e (selectEra rows e))).flatten

/-- Number of rows before position `i` that share era `e`. -/
def countEraBefore (rows : List (ℕ × ℚ)) (e : ℕ) (i : ℕ) : ℕ :=
  ((rows.take i).filter (fun r => r.1 = e)).length

/-- Recombination following the spec's words (the comparison point for the
refinement claim): per-era results are placed back in the dataset's
original row order — row `i` of era `e` receives entry number
`countEraBefore rows e i` of era `e`'s processed output. -/
def specOrderRecombine (f : ℕ → List ℚ → List ℚ) (rows : List (ℕ × ℚ)) :
    List ℚ :=
  rows.enum.map
    (fun p => (f p.2.1 (selectEra rows p.2.1)).getD (countEraBefore rows p.2.1 p.1) 0)

/-- A dataset in which each era's rows form one contiguous block. -/
def ofBlocks (blocks : List (ℕ × List ℚ)) : List (ℕ × ℚ) :=
  (blocks.map (fun b => b.2.map (fun v => (b.1, v)))).flatten

/-! ## Rank-gaussianization

`FeatureNeutralizer._normalize` computes
`(dataf.rank(method="first") - 0.5) / len(dataf)` followed by
`scipy.stats.norm.ppf`; `FeaturePenalizer.reduce_all_exposures` computes
`(scipy.stats.rankdata(x, method='ordinal') - .5) / len(x)` followed by the
same `ppf`.  Both rank methods give ordinal ranks: each entry's rank is one
plus the number of entries that are smaller, or equal but occur earlier.
The inverse standard-normal CDF is kept abstract as a parameter `ppf`. -/

/-- Ordinal ("first") rank of entry `i` of `x`: one plus the number of
entries that are smaller, or equal and at an earlier position. -/
def rankFirst {n : ℕ} (x : Fin n → ℚ) (i : Fin n) : ℕ :=
  1 + (Finset.univ.filter (fun j => x j < x i ∨ (x j = x i ∧ j < i))).card

/-- The rank of entry `i` mapped to `(rank - 0.5) / n`. -/
def normalizedRank {n : ℕ} (x : Fin n → ℚ) (i : Fin n) : ℚ :=
  ((rankFirst x i : ℚ) - 1/2) / (n : ℚ)

/-- Rank-gaussianization: ordinal ranks mapped to `(rank - 0.5) / n` and fed
through the inverse standard-normal CDF `ppf`. -/
def gaussianize {n : ℕ} (ppf : ℚ → ℚ) (x : Fin n → ℚ) (i : Fin n) : ℚ :=
  ppf (normalizedRank x i)

/-- Output scores of `FeaturePenalizer.reduce_exposure`: the input
predictions minus the bias-free linear model (kernel `w`) applied to the
centered features. -/
def reduceExposureScores {n m : ℕ} (prediction : Fin n → ℚ)
    (features : Fin n → Fin m → ℚ) (w : Fin m → ℚ) : Fin n → ℚ :=
  fun i => prediction i - ∑ j, (features i j - 1/2) * w j


/-- The minimum bounds every entry from below. -/
lemma vecMin_le {n : ℕ} (x : Fin (n + 1) → ℝ) (i : Fin (n + 1)) :
    vecMin x ≤ x i :=
  Finset.inf'_le x (Finset.mem_univ i)

/-- The maximum bounds every entry from above. -/
lemma le_vecMax {n : ℕ} (x : Fin (n + 1) → ℝ) (i : Fin (n + 1)) :
    x i ≤ vecMax x :=
  Finset.le_sup' x (Finset.mem_univ i)

/-- `MinMaxScaler` output always lies in `[0, 1]`. -/
lemma minMaxScale_mem {n : ℕ} (x : Fin (n + 1) → ℝ) (i : Fin (n + 1)) :
    0 ≤ minMaxScale x i ∧ minMaxScale x i ≤ 1 := by
  show 0 ≤ (x i - vecMin x) / (if vecMax x - vecMin x = 0 then 1
      else vecMax x - vecMin x) ∧
    (x i - vecMin x) / (if vecMax x - vecMin x = 0 then 1
      else vecMax x - vecMin x) ≤ 1
  by_cases hd : vecMax x - vecMin x = 0
  · have hx : x i = vecMin x :=
      le_antisymm (by linarith [le_vecMax x i]) (vecMin_le x i)
    rw [if_pos hd, hx]
    norm_num
  · have hle : vecMin x ≤ vecMax x :=
      le_trans (vecMin_le x 0) (le_vecMax x 0)
    have hdpos : 0 < vecMax x - vecMin x := lt_of_le_of_ne (by linarith) (Ne.symm hd)
    rw [if_neg hd]
    constructor
    · exact div_nonneg (by linarith [vecMin_le x i]) hdpos.le
    · rw [div_le_one hdpos]
      linarith [le_vecMax x i]

/-- Subtracting the minimum and dividing by the maximum sends every entry
of a nonconstant vector into `[0, 1]`. -/
lemma shiftScale_mem {n : ℕ} (y : Fin (n + 1) → ℝ) (hnc : ∃ i j, y i ≠ y j)
    (i : Fin (n + 1)) :
    0 ≤ (y i - vecMin y) / vecMax (fun k => y k - vecMin y) ∧
    (y i - vecMin y) / vecMax (fun k => y k - vecMin y) ≤ 1 := by
  obtain ⟨a, b, hab⟩ := hnc
  have hz : ∀ k, 0 ≤ y k - vecMin y := fun k => by linarith [vecMin_le y k]
  have hex : ∃ k, 0 < y k - vecMin y := by
    by_contra hcon
    push_neg at hcon
    have hall : ∀ k, y k = vecMin y := fun k =>
      le_antisymm (by linarith [hcon k]) (vecMin_le y k)
    exact hab ((hall a).trans (hall b).symm)
  obtain ⟨k, hk⟩ := hex
  have hmax : 0 < vecMax (fun k => y k - vecMin y) :=
    lt_of_lt_of_le hk (le_vecMax (fun k => y k - vecMin y) k)
  refine ⟨div_nonneg (hz i) hmax.le, ?_⟩
  rw [div_le_one hmax]
  exact le_vecMax (fun k => y k - vecMin y) i

/-- The population variance is nonnegative. -/
lemma tfVar_nonneg {n : ℕ} (x : Fin n → ℝ) : 0 ≤ tfVar x :=
  div_nonneg (Finset.sum_nonneg fun _ _ => sq_nonneg _) (Nat.cast_nonneg n)

/-- A vector with nonzero population standard deviation is nonconstant. -/
lemma nonconst_of_tfStd_ne {n : ℕ} (x : Fin (n + 1) → ℝ)
    (h : tfStd x ≠ 0) : ∃ i j, x i ≠ x j := by
  by_contra hcon
  push_neg at hcon
  have hc : ∀ i, x i = x 0 := fun i => hcon i 0
  have hmean : vecMean x = x 0 := by
    unfold vecMean
    rw [show (∑ i, x i) = ∑ _i : Fin (n + 1), x 0 from
      Finset.sum_congr rfl fun i _ => hc i]
    rw [Finset.sum_const, Finset.card_univ, Fintype.card_fin, nsmul_eq_mul]
    field_simp
  have hv : tfVar x = 0 := by
    unfold tfVar
    rw [show (∑ i, (x i - vecMean x) ^ 2) = 0 from
      Finset.sum_eq_zero fun i _ => by rw [hc i, hmean]; ring]
    simp
  exact h (by unfold tfStd; rw [hv, Real.sqrt_zero])

/-- The penalization path's rescale lands in `[0, 1]` whenever the scores
are not constant (nonzero standard deviation). -/
lemma penalRescale_mem {n : ℕ} (x : Fin (n + 1) → ℝ) (hx : tfStd x ≠ 0)
    (i : Fin (n + 1)) : 0 ≤ penalRescale x i ∧ penalRescale x i ≤ 1 := by
  obtain ⟨a, b, hab⟩ := nonconst_of_tfStd_ne x hx
  have hnc : ∃ i j, (fun k => x k / tfStd x) i ≠ (fun k => x k / tfStd x) j := by
    refine ⟨a, b, fun h => hab ?_⟩
    simp only at h
    exact mul_right_cancel₀ hx ((div_eq_div_iff hx hx).mp h)
  exact shiftScale_mem (fun k => x k / tfStd x) hnc i

/-- C2: Every final prediction output lies within `[0, 1]`: the
neutralization path ends in `MinMaxScaler`, whose output is always in
`[0, 1]`; the penalization path divides the adjusted scores by their
standard deviation, subtracts the minimum and divides by the maximum,
which lands in `[0, 1]` for every era whose adjusted scores are not
constant (nonzero standard deviation). -/
theorem output_range (n : ℕ) (x y : Fin (n + 1) → ℝ) (hy : tfStd y ≠ 0) :
    (∀ i, 0 ≤ minMaxScale x i ∧ minMaxScale x i ≤ 1) ∧
    (∀ i, 0 ≤ penalRescale y i ∧ penalRescale y i ≤ 1) :=
  ⟨minMaxScale_mem x, fun i => penalRescale_mem y hy i⟩

/-- Witness for C2 on the concrete two-row score vector `(0, 1)`. -/
theorem output_range_w :
    (∀ i, 0 ≤ minMaxScale (![0, 1] : Fin 2 → ℝ) i ∧
      minMaxScale (![0, 1] : Fin 2 → ℝ) i ≤ 1) ∧
    (∀ i, 0 ≤ penalRescale (![0, 1] : Fin 2 → ℝ) i ∧
      penalRescale (![0, 1] : Fin 2 → ℝ) i ≤ 1) := by
  refine output_range 1 ![0, 1] ![0, 1] ?_
  rw [tfStd, Real.sqrt_ne_zero']
  unfold tfVar vecMean
  rw [Fin.sum_univ_two, Fin.sum_univ_two]
  norm_num

end NumerBlocks

namespace NumerBlocks

/-- The training loop never performs more iterations than its fuel. -/
lemma trainLoopAux_le {S : Type} (step : S → ℚ × S) :
    ∀ (fuel : ℕ) (s : S), (trainLoopAux step fuel s).1 ≤ fuel := by
  intro fuel
  induction fuel with
  | zero => intro s; simp [trainLoopAux]
  | succ f ih =>
    intro s
    unfold trainLoopAux
    by_cases h : (step s).1 < trainTol
    · simp [h]
    · simpa [h] using Nat.succ_le_succ (ih (step s).2)

/-- Shifting the start state by one step shifts the loss sequence. -/
lemma trainLoss_shift {S : Type} (step : S → ℚ × S) (s : S) (k : ℕ) :
    trainLoss step (step s).2 k = trainLoss step s (k + 1) := by
  rfl

/-- If the first iteration whose loss falls below the tolerance is
iteration `k` (0-based) and the fuel exceeds `k`, the loop performs exactly
`k + 1` iterations. -/
lemma trainLoopAux_stops {S : Type} (step : S → ℚ × S) :
    ∀ (fuel k : ℕ) (s : S), k < fuel →
      trainLoss step s k < trainTol →
      (∀ j, j < k → ¬ trainLoss step s j < trainTol) →
      (trainLoopAux step fuel s).1 = k + 1 := by
  intro fuel
  induction fuel with
  | zero => intro k s hk; omega
  | succ f ih =>
    intro k s hk hloss hfirst
    unfold trainLoopAux
    cases k with
    | zero =>
      have h0 : (step s).1 < trainTol := hloss
      simp [h0]
    | succ k' =>
      have h0 : ¬ (step s).1 < trainTol := hfirst 0 (Nat.succ_pos k')
      have hrec : (trainLoopAux step f (step s).2).1 = k' + 1 := by
        refine ih k' (step s).2 (Nat.lt_of_succ_lt_succ hk) ?_ ?_
        · rw [trainLoss_shift]; exact hloss
        · intro j hj
          rw [trainLoss_shift]
          exact hfirst (j + 1) (Nat.succ_lt_succ hj)
      simp [h0, hrec]

/-- C5: The penalizer's optimization loop terminates: it performs at most
1,000,000 iterations, and whenever some iteration `k < 1,000,000` is the
first whose loss falls below the tolerance `1e-7`, the loop stops right
there, having performed exactly `k + 1` iterations. -/
theorem trainLoop_terminates {S : Type} (step : S → ℚ × S) (s : S) :
    (trainLoop step s).1 ≤ trainBudget ∧
    ∀ k, k < trainBudget → trainLoss step s k < trainTol →
      (∀ j, j < k → ¬ trainLoss step s j < trainTol) →
      (trainLoop step s).1 = k + 1 := by
  constructor
  · exact trainLoopAux_le step trainBudget s
  · intro k hk hloss hfirst
    exact trainLoopAux_stops step trainBudget k s hk hloss hfirst

/-- Witness for C5: for a step function of constant loss `0`, the loop stops
after exactly one iteration (and in particular within the budget). -/
theorem trainLoop_terminates_w :
    (trainLoop (fun s : Unit => ((0 : ℚ), s)) ()).1 = 1 := by
  refine (trainLoop_terminates (fun s : Unit => ((0 : ℚ), s)) ()).2 0 ?_ ?_ ?_
  · norm_num [trainBudget]
  · norm_num [trainLoss, trainState, trainTol]
  · intro j hj
    omega

/-- C7: The orthogonal neutralizer fails whenever its `proportion` parameter
lies outside `[0,1]` and accepts every `proportion` within `[0,1]`:
`FeatureNeutralizer.__init__` succeeds exactly when `0 ≤ proportion ≤ 1`,
and fails with the range-validation error otherwise. -/
theorem featureNeutralizer_init_validates (fn : List String) (pn : String)
    (p : ℚ) :
    ((∃ cfg, featureNeutralizerInit fn pn p = Except.ok cfg) ↔
      0 ≤ p ∧ p ≤ 1) ∧
    ((featureNeutralizerInit fn pn p =
      Except.error "'proportion' should be a float in range [0...1].") ↔
      ¬ (0 ≤ p ∧ p ≤ 1)) := by
  unfold featureNeutralizerInit
  by_cases h : 0 ≤ p ∧ p ≤ 1 <;> simp [h]

/-- Witness for C7: `proportion = 1/2` is accepted, `proportion = 2` is
rejected. -/
theorem featureNeutralizer_init_validates_w :
    (∃ cfg, featureNeutralizerInit [] "prediction" (1/2) = Except.ok cfg) ∧
    featureNeutralizerInit [] "prediction" 2 =
      Except.error "'proportion' should be a float in range [0...1]." := by
  constructor
  · exact (featureNeutralizer_init_validates [] "prediction" (1/2)).1.mpr
      (by norm_num)
  · exact (featureNeutralizer_init_validates [] "prediction" 2).2.mpr
      (by norm_num)

/-- C10: Constructing a `FeaturePenalizer` fails for every `max_exposure`
outside `[0,1]` and succeeds for every `max_exposure` in `[0,1]`. -/
theorem featurePenalizer_init_validates (ml : List String) (me : ℚ)
    (rf : List String) (pn : String) :
    ((∃ cfg, featurePenalizerInit ml me rf pn = Except.ok cfg) ↔
      0 ≤ me ∧ me ≤ 1) ∧
    ((featurePenalizerInit ml me rf pn =
      Except.error "'max_exposure' should be a float in range [0...1].") ↔
      ¬ (0 ≤ me ∧ me ≤ 1)) := by
  unfold featurePenalizerInit
  by_cases h : 0 ≤ me ∧ me ≤ 1 <;> simp [h]

/-- Witness for C10: `max_exposure = 1/10` is accepted, `max_exposure = -1`
is rejected. -/
theorem featurePenalizer_init_validates_w :
    (∃ cfg, featurePenalizerInit ["model"] (1/10) [] "prediction" =
      Except.ok cfg) ∧
    featurePenalizerInit ["model"] (-1) [] "prediction" =
      Except.error "'max_exposure' should be a float in range [0...1]." := by
  constructor
  · exact (featurePenalizer_init_validates ["model"] (1/10) [] "prediction").1.mpr
      (by norm_num)
  · exact (featurePenalizer_init_validates ["model"] (-1) [] "prediction").2.mpr
      (by norm_num)

/-- Overwriting column `n` in place leaves lookups of any other column
unchanged. -/
lemma find?_overwrite_ne (df : Dataframe) (n c : String) (v : List ℚ)
    (hc : c ≠ n) :
    (df.map (fun x => if x.1 = n then (n, v) else x)).find? (fun x => x.1 = c) =
      df.find? (fun x => x.1 = c) := by
  induction df with
  | nil => rfl
  | cons a t ih =>
    by_cases hac : a.1 = c
    · have han : ¬ a.1 = n := by rw [hac]; exact hc
      rw [List.map_cons, if_neg han,
        List.find?_cons_of_pos _ (by simp [hac]),
        List.find?_cons_of_pos _ (by simp [hac])]
    · by_cases han : a.1 = n
      · rw [List.map_cons, if_pos han,
          List.find?_cons_of_neg _ (by simp; exact fun h => hc h.symm),
          List.find?_cons_of_neg _ (by simp [hac]), ih]
      · rw [List.map_cons, if_neg han,
          List.find?_cons_of_neg _ (by simp [hac]),
          List.find?_cons_of_neg _ (by simp [hac]), ih]

/-- Appending a new column leaves lookups of any other column unchanged. -/
lemma find?_append_new (df : Dataframe) (n c : String) (v : List ℚ)
    (hc : c ≠ n) :
    (df ++ [(n, v)]).find? (fun x => x.1 = c) =
      df.find? (fun x => x.1 = c) := by
  induction df with
  | nil =>
    rw [List.nil_append,
      List.find?_cons_of_neg _ (by simp; exact fun h => hc h.symm)]
  | cons a t ih =>
    by_cases hac : a.1 = c
    · rw [List.cons_append, List.find?_cons_of_pos _ (by simp [hac]),
        List.find?_cons_of_pos _ (by simp [hac])]
    · rw [List.cons_append, List.find?_cons_of_neg _ (by simp [hac]),
        List.find?_cons_of_neg _ (by simp [hac]), ih]

/-- Reading any column other than the one being set through `setColumn`
gives the original column. -/
lemma getColumn_setColumn_ne (df : Dataframe) (n c : String) (v : List ℚ)
    (hc : c ≠ n) : getColumn (setColumn df n v) c = getColumn df c := by
  unfold setColumn getColumn
  by_cases hin : df.any (fun x => x.1 = n) = true
  · rw [if_pos hin, find?_overwrite_ne df n c v hc]
  · rw [if_neg hin, find?_append_new df n c v hc]

/-- Overwriting a present column makes its lookup return the new entry. -/
lemma find?_overwrite_self (df : Dataframe) (n : String) (v : List ℚ)
    (hin : df.any (fun x => x.1 = n) = true) :
    (df.map (fun x => if x.1 = n then (n, v) else x)).find?
      (fun x => x.1 = n) = some (n, v) := by
  induction df with
  | nil => simp at hin
  | cons a t ih =>
    by_cases han : a.1 = n
    · rw [List.map_cons, if_pos han, List.find?_cons_of_pos _ (by simp)]
    · rw [List.any_cons, Bool.or_eq_true] at hin
      rcases hin with hin | hin
      · exact absurd (by simpa using hin) han
      · rw [List.map_cons, if_neg han, List.find?_cons_of_neg _ (by simp [han])]
        exact ih hin

/-- Appending a fresh column makes its lookup return the new entry. -/
lemma find?_append_self (df : Dataframe) (n : String) (v : List ℚ)
    (hnin : ¬ df.any (fun x => x.1 = n) = true) :
    (df ++ [(n, v)]).find? (fun x => x.1 = n) = some (n, v) := by
  induction df with
  | nil => rw [List.nil_append, List.find?_cons_of_pos _ (by simp)]
  | cons a t ih =>
    rw [List.any_cons, Bool.or_eq_true] at hnin
    push_neg at hnin
    have han : ¬ a.1 = n := by simpa using hnin.1
    rw [List.cons_append, List.find?_cons_of_neg _ (by simp [han])]
    exact ih hnin.2

/-- Reading the column just set through `setColumn` gives the new values. -/
lemma getColumn_setColumn_self (df : Dataframe) (n : String) (v : List ℚ) :
    getColumn (setColumn df n v) n = some v := by
  unfold setColumn getColumn
  by_cases hin : df.any (fun x => x.1 = n) = true
  · rw [if_pos hin, find?_overwrite_self df n v hin]
    rfl
  · rw [if_neg hin, find?_append_self df n v hin]
    rfl

/-- C6 counterexample: the claim "returns a new dataset snapshot while the
original snapshot is never mutated" is false — after `transform` on a
dataset holding only a `prediction` column, the input dataset's dataframe
itself contains the new prediction column, so it differs from its
pre-call state. -/
theorem snapshot_mutation_cex :
    (transformEffect [("prediction", [(1 : ℚ)])]
        "prediction_neutralized_0.5" [(2 : ℚ)]).1 ≠
      [("prediction", [(1 : ℚ)])] := by
  decide

/-- C6 (amended): each stage writes its result into a new prediction column
alongside the original and never changes the original prediction column's
values (nor any other differently-named column), but it mutates the input
snapshot in place: the returned dataset's dataframe is exactly the input's
dataframe after the in-place column write. -/
theorem snapshot_update_amended (df : Dataframe) (pred_name new_col : String)
    (vals : List ℚ) (hne : pred_name ≠ new_col) :
    getColumn (transformEffect df new_col vals).1 pred_name =
      getColumn df pred_name ∧
    getColumn (transformEffect df new_col vals).1 new_col = some vals ∧
    (transformEffect df new_col vals).2 = (transformEffect df new_col vals).1 :=
  ⟨getColumn_setColumn_ne df new_col pred_name vals hne,
    getColumn_setColumn_self df new_col vals, rfl⟩

/-- Witness for the amended C6 on a one-column dataframe. -/
theorem snapshot_update_amended_w :
    getColumn (transformEffect [("prediction", [(1 : ℚ)])]
        "prediction_neutralized_0.5" [(2 : ℚ)]).1 "prediction" =
      getColumn [("prediction", [(1 : ℚ)])] "prediction" ∧
    getColumn (transformEffect [("prediction", [(1 : ℚ)])]
        "prediction_neutralized_0.5" [(2 : ℚ)]).1 "prediction_neutralized_0.5" =
      some [(2 : ℚ)] ∧
    (transformEffect [("prediction", [(1 : ℚ)])]
        "prediction_neutralized_0.5" [(2 : ℚ)]).2 =
      (transformEffect [("prediction", [(1 : ℚ)])]
        "prediction_neutralized_0.5" [(2 : ℚ)]).1 :=
  snapshot_update_amended [("prediction", [(1 : ℚ)])] "prediction"
    "prediction_neutralized_0.5" [(2 : ℚ)] (by decide)

/-- Membership in `uniqueFirst` is membership in the original list. -/
lemma mem_uniqueFirst (l : List ℕ) (x : ℕ) : x ∈ uniqueFirst l ↔ x ∈ l := by
  induction l using uniqueFirst.induct with
  | case1 => simp [uniqueFirst]
  | case2 e rest ih =>
    rw [uniqueFirst]
    by_cases hx : x = e
    · simp [hx]
    · simp only [List.mem_cons, hx, false_or]
      rw [ih]
      simp [List.mem_filter, hx]

/-- `map fst` commutes with dropping the rows of one era. -/
lemma map_fst_filter_ne (rs : List (ℕ × ℚ)) (e : ℕ) :
    (rs.filter (fun x => x.1 ≠ e)).map Prod.fst =
      (rs.map Prod.fst).filter (fun x => x ≠ e) := by
  induction rs with
  | nil => rfl
  | cons a t ih =>
    simp only [ne_eq, decide_not] at ih
    by_cases h : a.1 = e <;> simp [List.filter_cons, h, ih]

/-- Selecting era `e'` is unaffected by dropping the rows of a different
era `e`. -/
lemma selectEra_filter_ne (rows : List (ℕ × ℚ)) {e e' : ℕ} (h : e' ≠ e) :
    selectEra (rows.filter (fun x => x.1 ≠ e)) e' = selectEra rows e' := by
  unfold selectEra
  congr 1
  rw [List.filter_filter]
  apply List.filter_congr
  intro a _
  by_cases ha : a.1 = e'
  · simp [ha, h]
  · simp [ha]

/-- Selecting era `e'` ignores a leading row of a different era. -/
lemma selectEra_cons_ne (r : ℕ × ℚ) (rs : List (ℕ × ℚ)) {e' : ℕ}
    (h : ¬ r.1 = e') : selectEra (r :: rs) e' = selectEra rs e' := by
  simp [selectEra, List.filter_cons, h]

/-- Peeling the first row's era out of the recombination skeleton: its
whole era is processed first, and the remaining rows are processed with
that era's rows removed. -/
lemma reduceAllSkeleton_cons (f : ℕ → List ℚ → List ℚ) (r : ℕ × ℚ)
    (rs : List (ℕ × ℚ)) :
    reduceAllSkeleton f (r :: rs) =
      f r.1 (selectEra (r :: rs) r.1) ++
        reduceAllSkeleton f (rs.filter (fun x => x.1 ≠ r.1)) := by
  unfold reduceAllSkeleton
  rw [List.map_cons, uniqueFirst, List.map_cons, List.flatten_cons,
    map_fst_filter_ne]
  congr 1
  apply congrArg List.flatten
  apply List.map_congr_left
  intro e' he'
  have hne : e' ≠ r.1 := by
    rw [mem_uniqueFirst] at he'
    simpa using (List.mem_filter.mp he').2
  rw [selectEra_filter_ne rs hne, selectEra_cons_ne r rs (Ne.symm hne)]

/-- The recombined column always has exactly as many rows as the input
dataset, for any length-preserving per-era transform. -/
lemma reduceAllSkeleton_length (f : ℕ → List ℚ → List ℚ)
    (hf : ∀ e vs, (f e vs).length = vs.length) :
    ∀ rows : List (ℕ × ℚ), (reduceAllSkeleton f rows).length = rows.length
  | [] => by simp [reduceAllSkeleton, uniqueFirst]
  | r :: rs => by
    rw [reduceAllSkeleton_cons, List.length_append, hf,
      reduceAllSkeleton_length f hf (rs.filter (fun x => x.1 ≠ r.1))]
    have hsel : (selectEra (r :: rs) r.1).length =
        ((r :: rs).filter (fun x => x.1 = r.1)).length := by
      simp [selectEra]
    have hsplit := List.length_eq_length_filter_add
      (l := r :: rs) (fun x : ℕ × ℚ => decide (x.1 = r.1))
    have hneg : ((r :: rs).filter (fun x => !(decide (x.1 = r.1)))) =
        rs.filter (fun x => x.1 ≠ r.1) := by
      simp [List.filter_cons, ne_eq, decide_not]
    rw [hsel]
    rw [hneg] at hsplit
    omega
termination_by rows => rows.length
decreasing_by simp; exact Nat.lt_succ_of_le (List.length_filter_le _ _)

/-- Every row of a block dataset carries one of the block era keys. -/
lemma mem_ofBlocks_fst {blocks : List (ℕ × List ℚ)} {r : ℕ × ℚ}
    (hr : r ∈ ofBlocks blocks) : r.1 ∈ blocks.map Prod.fst := by
  induction blocks with
  | nil => simp [ofBlocks] at hr
  | cons b bs ih =>
    rw [ofBlocks, List.map_cons, List.flatten_cons, List.mem_append] at hr
    rcases hr with hr | hr
    · obtain ⟨v, -, rfl⟩ := List.mem_map.mp hr
      simp
    · exact List.mem_cons_of_mem _ (ih hr)

/-- Selecting the leading block's era returns exactly that block's scores. -/
lemma selectEra_block_head (e : ℕ) (vs : List ℚ) (bs : List (ℕ × List ℚ))
    (hnot : e ∉ bs.map Prod.fst) :
    selectEra (vs.map (fun v => (e, v)) ++ ofBlocks bs) e = vs := by
  unfold selectEra
  rw [List.filter_append]
  have h1 : (vs.map (fun v => (e, v))).filter (fun r => r.1 = e) =
      vs.map (fun v => (e, v)) := by
    apply List.filter_eq_self.mpr
    intro a ha
    obtain ⟨v, -, rfl⟩ := List.mem_map.mp ha
    simp
  have h2 : (ofBlocks bs).filter (fun r => r.1 = e) = [] := by
    apply List.filter_eq_nil_iff.mpr
    intro a ha
    simp only [decide_eq_true_eq]
    intro hae
    exact hnot (hae ▸ mem_ofBlocks_fst ha)
  rw [h1, h2, List.append_nil, List.map_map]
  simp

/-- Dropping the leading block's era removes exactly that block. -/
lemma filter_ne_block_head (e : ℕ) (vs : List ℚ) (bs : List (ℕ × List ℚ))
    (hnot : e ∉ bs.map Prod.fst) :
    (vs.map (fun v => (e, v)) ++ ofBlocks bs).filter (fun x => x.1 ≠ e) =
      ofBlocks bs := by
  rw [List.filter_append]
  have h1 : (vs.map (fun v => (e, v))).filter (fun x => x.1 ≠ e) = [] := by
    apply List.filter_eq_nil_iff.mpr
    intro a ha
    obtain ⟨v, -, rfl⟩ := List.mem_map.mp ha
    simp
  have h2 : (ofBlocks bs).filter (fun x => x.1 ≠ e) = ofBlocks bs := by
    apply List.filter_eq_self.mpr
    intro a ha
    simp only [ne_eq, decide_not, Bool.not_eq_eq_eq_not, Bool.not_true,
      decide_eq_false_iff_not]
    intro hae
    exact hnot (hae ▸ mem_ofBlocks_fst ha)
  rw [h1, h2, List.nil_append]

/-- On a dataset whose eras form contiguous nonempty blocks with distinct
keys, the recombination skeleton returns the per-block outputs in block
order — i.e. in the dataset's original row order. -/
lemma reduceAllSkeleton_blocks (f : ℕ → List ℚ → List ℚ) :
    ∀ blocks : List (ℕ × List ℚ), (blocks.map Prod.fst).Nodup →
      (∀ b ∈ blocks, b.2 ≠ []) →
      reduceAllSkeleton f (ofBlocks blocks) =
        (blocks.map (fun b => f b.1 b.2)).flatten := by
  intro blocks
  induction blocks with
  | nil => intro _ _; simp [reduceAllSkeleton, ofBlocks, uniqueFirst]
  | cons b bs ih =>
    intro hnd hne
    obtain ⟨e, vs⟩ := b
    have hnot : e ∉ bs.map Prod.fst := by
      rw [List.map_cons, List.nodup_cons] at hnd
      exact hnd.1
    obtain ⟨v0, vs', rfl⟩ : ∃ v0 vs', vs = v0 :: vs' := by
      cases vs with
      | nil => exact absurd rfl (hne (e, []) (List.mem_cons_self _ _))
      | cons v0 vs' => exact ⟨v0, vs', rfl⟩
    have hrows : ofBlocks ((e, v0 :: vs') :: bs) =
        (e, v0) :: (vs'.map (fun v => (e, v)) ++ ofBlocks bs) := by
      simp [ofBlocks]
    rw [hrows, reduceAllSkeleton_cons]
    have hself : ((e, v0) : ℕ × ℚ) :: (vs'.map (fun v => (e, v)) ++ ofBlocks bs) =
        (v0 :: vs').map (fun v => (e, v)) ++ ofBlocks bs := by
      simp
    rw [hself, selectEra_block_head e (v0 :: vs') bs hnot]
    have hfil : (vs'.map (fun v => (e, v)) ++ ofBlocks bs).filter
        (fun x => x.1 ≠ e) = ofBlocks bs :=
      filter_ne_block_head e vs' bs hnot
    rw [hfil, ih (by rw [List.map_cons, List.nodup_cons] at hnd; exact hnd.2)
      (fun b hb => hne b (List.mem_cons_of_mem _ hb))]
    simp

/-- C3 (amended): for every length-preserving per-era transform the
recombined column has exactly as many rows as the input dataset; and when
each era's rows form one contiguous block the outputs come back in the
dataset's original row order (block by block).  For interleaved eras the
original-row-order part of the claim fails (see the counterexample). -/
theorem eraRecombine_amended (f : ℕ → List ℚ → List ℚ)
    (hf : ∀ e vs, (f e vs).length = vs.length)
    (rows : List (ℕ × ℚ)) (blocks : List (ℕ × List ℚ))
    (hnd : (blocks.map Prod.fst).Nodup) (hne : ∀ b ∈ blocks, b.2 ≠ []) :
    (reduceAllSkeleton f rows).length = rows.length ∧
    reduceAllSkeleton f (ofBlocks blocks) =
      (blocks.map (fun b => f b.1 b.2)).flatten :=
  ⟨reduceAllSkeleton_length f hf rows, reduceAllSkeleton_blocks f blocks hnd hne⟩

/-- Witness for the amended C3, on the dataset
`[(era 0, 10), (era 1, 20), (era 0, 30)]` and blocks
`[(0, [10, 20]), (1, [30])]` with the identity per-era transform. -/
theorem eraRecombine_amended_w :
    (reduceAllSkeleton (fun _ vs => vs)
        [((0 : ℕ), (10 : ℚ)), (1, 20), (0, 30)]).length =
      ([((0 : ℕ), (10 : ℚ)), (1, 20), (0, 30)] : List (ℕ × ℚ)).length ∧
    reduceAllSkeleton (fun _ vs => vs)
        (ofBlocks [((0 : ℕ), [(10 : ℚ), 20]), (1, [30])]) =
      (([((0 : ℕ), [(10 : ℚ), 20]), (1, [30])] : List (ℕ × List ℚ)).map
        (fun b => b.2)).flatten :=
  eraRecombine_amended (fun _ vs => vs) (fun _ _ => rfl)
    [((0 : ℕ), (10 : ℚ)), (1, 20), (0, 30)]
    [((0 : ℕ), [(10 : ℚ), 20]), (1, [30])] (by decide) (by decide)

/-- Counterexample for C3 as stated: on the interleaved dataset
`[(era 0, 10), (era 1, 20), (era 0, 30)]`, with the identity
(length-preserving) per-era transform, the code's recombination returns the
era-grouped column `[10, 30, 20]`, not the original-row-order column
`[10, 20, 30]` demanded by the spec. -/
theorem eraRecombine_interleaved_cex :
    reduceAllSkeleton (fun _ vs => vs)
        [((0 : ℕ), (10 : ℚ)), (1, 20), (0, 30)] = [10, 30, 20] ∧
    specOrderRecombine (fun _ vs => vs)
        [((0 : ℕ), (10 : ℚ)), (1, 20), (0, 30)] = [10, 20, 30] ∧
    reduceAllSkeleton (fun _ vs => vs)
        [((0 : ℕ), (10 : ℚ)), (1, 20), (0, 30)] ≠
      specOrderRecombine (fun _ vs => vs)
        [((0 : ℕ), (10 : ℚ)), (1, 20), (0, 30)] := by
  have h1 : reduceAllSkeleton (fun _ vs => vs)
      [((0 : ℕ), (10 : ℚ)), (1, 20), (0, 30)] = [10, 30, 20] := by
    rw [reduceAllSkeleton,
      show uniqueFirst ([((0 : ℕ), (10 : ℚ)), (1, 20), (0, 30)].map Prod.fst) =
        [0, 1] by simp [uniqueFirst]]
    decide
  have h2 : specOrderRecombine (fun _ vs => vs)
      [((0 : ℕ), (10 : ℚ)), (1, 20), (0, 30)] = [10, 20, 30] := by
    decide
  refine ⟨h1, h2, ?_⟩
  rw [h1, h2]
  decide

/-- The strict "comes before" relation underlying ordinal ranking is
transitive. -/
lemma rankRel_trans {n : ℕ} (x : Fin n → ℚ) {k i j : Fin n}
    (h1 : x k < x i ∨ (x k = x i ∧ k < i)) (h2 : x i < x j ∨ (x i = x j ∧ i < j)) :
    x k < x j ∨ (x k = x j ∧ k < j) := by
  rcases h1 with h1 | ⟨h1e, h1l⟩ <;> rcases h2 with h2 | ⟨h2e, h2l⟩
  · exact Or.inl (lt_trans h1 h2)
  · exact Or.inl (h2e ▸ h1)
  · exact Or.inl (h1e ▸ h2)
  · exact Or.inr ⟨h1e.trans h2e, lt_trans h1l h2l⟩

/-- The strict "comes before" relation is total on distinct indices. -/
lemma rankRel_total {n : ℕ} (x : Fin n → ℚ) {i j : Fin n} (hij : i ≠ j) :
    (x i < x j ∨ (x i = x j ∧ i < j)) ∨ (x j < x i ∨ (x j = x i ∧ j < i)) := by
  rcases lt_trichotomy (x i) (x j) with h | h | h
  · exact Or.inl (Or.inl h)
  · rcases lt_or_gt_of_ne (Fin.val_ne_of_ne hij) with hl | hl
    · exact Or.inl (Or.inr ⟨h, hl⟩)
    · exact Or.inr (Or.inr ⟨h.symm, hl⟩)
  · exact Or.inr (Or.inl h)

/-- An index strictly earlier in rank order has a strictly smaller rank. -/
lemma rankFirst_lt_of_rel {n : ℕ} (x : Fin n → ℚ) {i j : Fin n}
    (h : x i < x j ∨ (x i = x j ∧ i < j)) : rankFirst x i < rankFirst x j := by
  unfold rankFirst
  have hsub : (Finset.univ.filter (fun k => x k < x i ∨ (x k = x i ∧ k < i))) ⊆
      (Finset.univ.filter (fun k => x k < x j ∨ (x k = x j ∧ k < j))) := by
    intro k hk
    rw [Finset.mem_filter] at hk ⊢
    exact ⟨hk.1, rankRel_trans x hk.2 h⟩
  have hmem : i ∈ Finset.univ.filter (fun k => x k < x j ∨ (x k = x j ∧ k < j)) := by
    rw [Finset.mem_filter]
    exact ⟨Finset.mem_univ i, h⟩
  have hnmem : i ∉ Finset.univ.filter (fun k => x k < x i ∨ (x k = x i ∧ k < i)) := by
    rw [Finset.mem_filter]
    rintro ⟨-, hlt | ⟨-, hlt⟩⟩
    · exact lt_irrefl _ hlt
    · exact lt_irrefl _ hlt
  have hss := (Finset.ssubset_iff_of_subset hsub).mpr ⟨i, hmem, hnmem⟩
  exact Nat.add_lt_add_left (Finset.card_lt_card hss) 1

/-- The rank order of two distinct entries is exactly the value order with
ties broken by original row position. -/
lemma rankFirst_lt_iff {n : ℕ} (x : Fin n → ℚ) {i j : Fin n} (hij : i ≠ j) :
    rankFirst x i < rankFirst x j ↔ (x i < x j ∨ (x i = x j ∧ i < j)) := by
  constructor
  · intro hlt
    rcases rankRel_total x hij with h | h
    · exact h
    · exact absurd (rankFirst_lt_of_rel x h) (Nat.lt_asymm hlt)
  · exact rankFirst_lt_of_rel x

/-- Ordinal ranks are distinct on distinct indices. -/
lemma rankFirst_injective {n : ℕ} (x : Fin n → ℚ) :
    Function.Injective (rankFirst x) := by
  intro i j hrank
  by_contra hij
  rcases rankRel_total x hij with h | h
  · exact absurd hrank (Nat.ne_of_lt (rankFirst_lt_of_rel x h))
  · exact absurd hrank.symm (Nat.ne_of_lt (rankFirst_lt_of_rel x h))

/-- Ordinal ranks lie between `1` and `n`. -/
lemma rankFirst_bounds {n : ℕ} (x : Fin n → ℚ) (i : Fin n) :
    1 ≤ rankFirst x i ∧ rankFirst x i ≤ n := by
  refine ⟨Nat.le_add_right 1 _, ?_⟩
  unfold rankFirst
  have hsub : (Finset.univ.filter (fun k => x k < x i ∨ (x k = x i ∧ k < i))) ⊆
      Finset.univ.erase i := by
    intro k hk
    rw [Finset.mem_filter] at hk
    rw [Finset.mem_erase]
    refine ⟨?_, Finset.mem_univ k⟩
    rintro rfl
    rcases hk.2 with hlt | ⟨-, hlt⟩
    · exact lt_irrefl _ hlt
    · exact lt_irrefl _ hlt
  have hcard := Finset.card_le_card hsub
  rw [Finset.card_erase_of_mem (Finset.mem_univ i), Finset.card_univ,
    Fintype.card_fin] at hcard
  have hn : 1 ≤ n := Nat.succ_le_of_lt i.pos
  omega

/-- C4: Rank-gaussianization assigns each value its ordinal rank with ties
broken by original row order (not by value), maps rank `r` to
`(r - 0.5) / n`, and applies the inverse standard-normal CDF to that
quantity; the ranks are exactly a permutation of `{1, ..., n}`. -/
theorem rankGaussianize_spec (n : ℕ) (ppf : ℚ → ℚ) (x : Fin n → ℚ) :
    (∀ i, gaussianize ppf x i = ppf (((rankFirst x i : ℚ) - 1/2) / (n : ℚ))) ∧
    (∀ i j : Fin n, i ≠ j →
      (rankFirst x i < rankFirst x j ↔ (x i < x j ∨ (x i = x j ∧ i < j)))) ∧
    (∀ i, 1 ≤ rankFirst x i ∧ rankFirst x i ≤ n) ∧
    Finset.image (rankFirst x) Finset.univ = Finset.Icc 1 n := by
  refine ⟨fun i => rfl, fun i j hij => rankFirst_lt_iff x hij,
    rankFirst_bounds x, ?_⟩
  apply Finset.eq_of_subset_of_card_le
  · intro r hr
    rw [Finset.mem_image] at hr
    obtain ⟨i, -, rfl⟩ := hr
    rw [Finset.mem_Icc]
    exact rankFirst_bounds x i
  · rw [Finset.card_image_of_injective _ (rankFirst_injective x),
      Finset.card_univ, Fintype.card_fin, Nat.card_Icc]
    omega

/-- Witness for C4: on the concrete vector `(3, 1, 3)` the ranks are
`(2, 1, 3)` — the tied values at positions 0 and 2 are ranked by row
order — and the normalized rank of position 1 is `(1 - 0.5) / 3`. -/
theorem rankGaussianize_spec_w :
    rankFirst ![(3 : ℚ), 1, 3] 0 < rankFirst ![(3 : ℚ), 1, 3] 2 ∧
    gaussianize id ![(3 : ℚ), 1, 3] 1 =
      ((rankFirst ![(3 : ℚ), 1, 3] 1 : ℚ) - 1/2) / (3 : ℚ) := by
  constructor
  · exact ((rankGaussianize_spec 3 id ![(3 : ℚ), 1, 3]).2.1 0 2 (by decide)).mpr
      (Or.inr ⟨by decide, by decide⟩)
  · exact (rankGaussianize_spec 3 id ![(3 : ℚ), 1, 3]).1 1

/-- A one-row matrix whose row has zero squared norm is the zero matrix. -/
lemma row_eq_zero_of_sq_sum_zero {m : ℕ} (E : Matrix (Fin 1) (Fin m) ℚ)
    (hc : (∑ k, E 0 k * E 0 k) = 0) : E = 0 := by
  have hall : ∀ k ∈ Finset.univ, E 0 k * E 0 k = 0 :=
    (Finset.sum_eq_zero_iff_of_nonneg fun k _ => mul_self_nonneg (E 0 k)).mp hc
  ext i j
  have hi : i = 0 := Subsingleton.elim i 0
  subst hi
  exact mul_self_eq_zero.mp (hall j (Finset.mem_univ j))

/-- The explicit one-row pseudo-inverse satisfies all four Penrose
conditions. -/
lemma pinv1_isMPInv {m : ℕ} (E : Matrix (Fin 1) (Fin m) ℚ) :
    IsMPInv E (pinv1 E) := by
  by_cases hc : (∑ k, E 0 k * E 0 k) = 0
  · have hE : E = 0 := row_eq_zero_of_sq_sum_zero E hc
    have hP : pinv1 E = 0 := by
      ext j i
      simp [pinv1, hE]
    rw [hE] at hP
    rw [hE, hP]
    refine ⟨?_, ?_, ?_, ?_⟩ <;> simp
  · have hEP : E * pinv1 E = 1 := by
      ext i k
      have hi : i = 0 := Subsingleton.elim i 0
      have hk : k = 0 := Subsingleton.elim k 0
      subst hi; subst hk
      rw [Matrix.mul_apply, Matrix.one_apply_eq]
      calc ∑ j, E 0 j * pinv1 E j 0
          = ∑ j, (E 0 j * E 0 j) / (∑ k, E 0 k * E 0 k) := by
            refine Finset.sum_congr rfl fun j _ => ?_
            rw [pinv1, Matrix.of_apply, mul_div_assoc]
        _ = (∑ j, E 0 j * E 0 j) / (∑ k, E 0 k * E 0 k) := by
            rw [Finset.sum_div]
        _ = 1 := div_self hc
    refine ⟨?_, ?_, ?_, ?_⟩
    · rw [hEP, Matrix.one_mul]
    · rw [Matrix.mul_assoc, hEP, Matrix.mul_one]
    · rw [hEP, Matrix.transpose_one]
    · ext j k
      rw [Matrix.transpose_apply, Matrix.mul_apply, Matrix.mul_apply,
        Fin.sum_univ_one, Fin.sum_univ_one]
      simp only [pinv1, Matrix.of_apply]
      ring

/-- The ordinal rank of any entry in a constant vector is its position plus
one: ranks stay well-defined under the tie-break rule. -/
lemma rankFirst_const {n : ℕ} (c : ℚ) (i : Fin n) :
    rankFirst (fun _ => c) i = (i : ℕ) + 1 := by
  unfold rankFirst
  have hfil : (Finset.univ.filter
      (fun j : Fin n => c < c ∨ (c = c ∧ j < i))) = Finset.Iio i := by
    ext j
    simp [Finset.mem_Iio, lt_irrefl]
  rw [hfil, Fin.card_Iio]
  omega

/-- Rank-gaussianization of a one-entry vector produces the normalized rank
`1/2` (no division by zero). -/
lemma normalizedRank_single (y : Fin 1 → ℚ) (i : Fin 1) :
    normalizedRank y i = 1/2 := by
  have hi : i = 0 := Subsingleton.elim i 0
  subst hi
  have h1 : rankFirst y 0 = 1 := by
    unfold rankFirst
    have hfil : (Finset.univ.filter
        (fun j : Fin 1 => y j < y 0 ∨ (y j = y 0 ∧ j < 0))) = ∅ := by
      ext j
      have hj : j = 0 := Subsingleton.elim j 0
      subst hj
      simp
    rw [hfil]
    simp
  rw [normalizedRank, h1]
  norm_num

/-- C9: For a single-row era, rank-gaussianization divides by `n = 1 ≠ 0`
and yields the well-defined normalized rank `1/2`; the pseudo-inverse of a
1-row exposure matrix exists (the explicit `pinv1` satisfies all Penrose
conditions); and on any all-identical vector the ordinal ranks are still the
well-defined permutation `i ↦ i + 1`. -/
theorem singleRow_safety (n m : ℕ) (hn : 1 ≤ n)
    (E : Matrix (Fin 1) (Fin m) ℚ) :
    ((n : ℚ) ≠ 0) ∧
    (∀ (y : Fin 1 → ℚ) (i : Fin 1), normalizedRank y i = 1/2) ∧
    IsMPInv E (pinv1 E) ∧
    (∀ (c : ℚ) (i : Fin n), rankFirst (fun _ => c) i = (i : ℕ) + 1) := by
  refine ⟨?_, normalizedRank_single, pinv1_isMPInv E, fun c i => rankFirst_const c i⟩
  have hne : n ≠ 0 := by omega
  exact_mod_cast hne

/-- Witness for C9: the identity `1 × 1` exposure matrix has a valid
pseudo-inverse and the constant one-entry vector `7` normalizes to `1/2`. -/
theorem singleRow_safety_w :
    IsMPInv (1 : Matrix (Fin 1) (Fin 1) ℚ) (pinv1 1) ∧
    normalizedRank (fun _ : Fin 1 => (7 : ℚ)) 0 = 1/2 := by
  have h := singleRow_safety 1 1 (by norm_num) (1 : Matrix (Fin 1) (Fin 1) ℚ)
  exact ⟨h.2.2.1, h.2.1 (fun _ => 7) 0⟩

/-- C8: If the exposure matrix passed to the penalizer has zero columns, the
penalizer returns the scores unchanged: `reduce_exposure` computes
`pred - model(feats)` and the bias-free linear model over zero features is
identically zero, for every kernel the training produces. -/
theorem reduceExposure_zero_columns (n : ℕ) (prediction : Fin n → ℚ)
    (features : Fin n → Fin 0 → ℚ) (w : Fin 0 → ℚ) :
    reduceExposureScores prediction features w = prediction := by
  funext i
  simp [reduceExposureScores]


/-- The squared norm is nonnegative. -/
lemma sqNorm_nonneg {n : ℕ} (v : Fin n → ℝ) : 0 ≤ sqNorm v := by
  unfold sqNorm Matrix.dotProduct
  exact Finset.sum_nonneg fun i _ => mul_self_nonneg (v i)

/-- For a Moore-Penrose pair, the projector `E * P` is idempotent. -/
lemma isMPInv_proj_idem {n m : ℕ} {E : Matrix (Fin n) (Fin m) ℝ}
    {P : Matrix (Fin m) (Fin n) ℝ} (hP : IsMPInv E P) :
    (E * P) * (E * P) = E * P := by
  calc (E * P) * (E * P) = ((E * P) * E) * P := (Matrix.mul_assoc (E * P) E P).symm
    _ = E * P := by rw [hP.1]

/-- The residual of a symmetric idempotent projection is orthogonal to the
projection's range. -/
lemma proj_cross_zero {n : ℕ} (Q : Matrix (Fin n) (Fin n) ℝ)
    (hsym : Q.transpose = Q) (hidem : Q * Q = Q) (s u : Fin n → ℝ) :
    Matrix.dotProduct (s - Q.mulVec s) (Q.mulVec u) = 0 := by
  rw [Matrix.sub_dotProduct, Matrix.dotProduct_mulVec s Q u,
    Matrix.dotProduct_mulVec (Q.mulVec s) Q u]
  have h1 : Matrix.vecMul s Q = Q.mulVec s := by
    have ht := Matrix.vecMul_transpose Q s
    rw [hsym] at ht
    exact ht
  have h2 : Matrix.vecMul (Q.mulVec s) Q = Q.mulVec s := by
    have ht := Matrix.vecMul_transpose Q (Q.mulVec s)
    rw [hsym] at ht
    rw [ht, Matrix.mulVec_mulVec, hidem]
  rw [h1, h2, sub_self]

/-- `E * pinv(E) * s` is the least-squares projection of `s` onto the
column space of `E`: it minimizes the squared distance to `s` among all
vectors of the form `E * w`. -/
lemma proj_least_squares {n m : ℕ} (E : Matrix (Fin n) (Fin m) ℝ)
    (P : Matrix (Fin m) (Fin n) ℝ) (hP : IsMPInv E P) (s : Fin n → ℝ)
    (w : Fin m → ℝ) :
    sqNorm (s - E.mulVec (P.mulVec s)) ≤ sqNorm (s - E.mulVec w) := by
  have hsym : (E * P).transpose = E * P := hP.2.2.1
  have hidem : (E * P) * (E * P) = E * P := isMPInv_proj_idem hP
  have hQs : E.mulVec (P.mulVec s) = (E * P).mulVec s :=
    Matrix.mulVec_mulVec s E P
  have hdecomp : s - E.mulVec w =
      (s - (E * P).mulVec s) + (E * P).mulVec (s - E.mulVec w) := by
    rw [Matrix.mulVec_sub, Matrix.mulVec_mulVec w (E * P) E, hP.1]
    abel
  rw [hQs, hdecomp]
  have hexp : sqNorm ((s - (E * P).mulVec s) +
      (E * P).mulVec (s - E.mulVec w)) =
      sqNorm (s - (E * P).mulVec s) +
      2 * Matrix.dotProduct (s - (E * P).mulVec s)
        ((E * P).mulVec (s - E.mulVec w)) +
      sqNorm ((E * P).mulVec (s - E.mulVec w)) := by
    unfold sqNorm
    rw [Matrix.add_dotProduct, Matrix.dotProduct_add, Matrix.dotProduct_add,
      Matrix.dotProduct_comm ((E * P).mulVec (s - E.mulVec w))
        (s - (E * P).mulVec s)]
    ring
  rw [hexp, proj_cross_zero (E * P) hsym hidem s (s - E.mulVec w)]
  have hb := sqNorm_nonneg ((E * P).mulVec (s - E.mulVec w))
  linarith

/-- Mean scales under division by a constant. -/
lemma vecMean_div {n : ℕ} (t : Fin n → ℝ) (c : ℝ) :
    vecMean (fun i => t i / c) = vecMean t / c := by
  unfold vecMean
  rw [← Finset.sum_div]
  ring

/-- Sample variance scales with the square under division by a constant. -/
lemma pdVar_div {n : ℕ} (t : Fin n → ℝ) (c : ℝ) :
    pdVar (fun i => t i / c) = pdVar t / c ^ 2 := by
  unfold pdVar
  rw [vecMean_div,
    show (∑ i, (t i / c - vecMean t / c) ^ 2) =
      (∑ i, (t i - vecMean t) ^ 2) / c ^ 2 by
        rw [Finset.sum_div]
        exact Finset.sum_congr rfl fun i _ => by ring]
  ring

/-- Sample variance is nonnegative. -/
lemma pdVar_nonneg {n : ℕ} (t : Fin n → ℝ) : 0 ≤ pdVar t := by
  unfold pdVar
  rcases Nat.eq_zero_or_pos n with h0 | hpos
  · subst h0
    simp
  · apply div_nonneg (Finset.sum_nonneg fun i _ => sq_nonneg _)
    have h1 : (1 : ℝ) ≤ (n : ℝ) := by exact_mod_cast hpos
    linarith

/-- Dividing a vector by its (nonzero) sample standard deviation yields a
vector of unit sample standard deviation. -/
lemma pdStd_div_self {n : ℕ} (t : Fin n → ℝ) (hc : pdStd t ≠ 0) :
    pdStd (fun i => t i / pdStd t) = 1 := by
  have hvar : 0 < pdVar t := by
    rcases lt_or_eq_of_le (pdVar_nonneg t) with h | h
    · exact h
    · exact absurd (by unfold pdStd; rw [← h, Real.sqrt_zero]) hc
  have key : pdVar (fun i => t i / pdStd t) = 1 := by
    rw [pdVar_div, show pdStd t ^ 2 = pdVar t from Real.sq_sqrt (pdVar_nonneg t),
      div_self (ne_of_gt hvar)]
  rw [show pdStd (fun i => t i / pdStd t) =
      Real.sqrt (pdVar (fun i => t i / pdStd t)) from rfl, key, Real.sqrt_one]

/-- C1: The orthogonal neutralizer returns
`(s - proportion * E * pinv(E) * s)` divided by its sample standard
deviation; `E * pinv(E) * s` is the least-squares projection of the scores
onto the column space of the exposures (for any `P` satisfying the Penrose
conditions that characterise `np.linalg.pinv`); and whenever that standard
deviation is nonzero the result has unit standard deviation. -/
theorem neutralize_spec (n m : ℕ) (proportion : ℝ) (s : Fin n → ℝ)
    (E : Matrix (Fin n) (Fin m) ℝ) (P : Matrix (Fin m) (Fin n) ℝ)
    (hP : IsMPInv E P) :
    (neutralize proportion s E P = fun i =>
      (s i - proportion * E.mulVec (P.mulVec s) i) /
        pdStd (fun j => s j - proportion * E.mulVec (P.mulVec s) j)) ∧
    (∀ w : Fin m → ℝ,
      sqNorm (s - E.mulVec (P.mulVec s)) ≤ sqNorm (s - E.mulVec w)) ∧
    (pdStd (fun j => s j - proportion * E.mulVec (P.mulVec s) j) ≠ 0 →
      pdStd (neutralize proportion s E P) = 1) := by
  refine ⟨rfl, fun w => proj_least_squares E P hP s w, fun hc => ?_⟩
  exact pdStd_div_self (fun j => s j - proportion * E.mulVec (P.mulVec s) j) hc

/-- Witness for C1 with the all-zero `2 × 1` exposure matrix (its
pseudo-inverse is the zero matrix), scores `(0, 2)` and proportion `1/2`. -/
theorem neutralize_spec_w :
    sqNorm ((![0, 2] : Fin 2 → ℝ) -
        (0 : Matrix (Fin 2) (Fin 1) ℝ).mulVec
          ((0 : Matrix (Fin 1) (Fin 2) ℝ).mulVec ![0, 2])) ≤
      sqNorm ((![0, 2] : Fin 2 → ℝ) -
        (0 : Matrix (Fin 2) (Fin 1) ℝ).mulVec ![5]) ∧
    pdStd (neutralize (1/2) (![0, 2] : Fin 2 → ℝ)
      (0 : Matrix (Fin 2) (Fin 1) ℝ) (0 : Matrix (Fin 1) (Fin 2) ℝ)) = 1 := by
  have hP : IsMPInv (0 : Matrix (Fin 2) (Fin 1) ℝ)
      (0 : Matrix (Fin 1) (Fin 2) ℝ) := by
    refine ⟨?_, ?_, ?_, ?_⟩ <;> simp
  have h := neutralize_spec 2 1 (1/2) ![0, 2] 0 0 hP
  refine ⟨h.2.1 ![5], h.2.2 ?_⟩
  have hfun : (fun j : Fin 2 => (![0, 2] : Fin 2 → ℝ) j -
      (1/2 : ℝ) * (0 : Matrix (Fin 2) (Fin 1) ℝ).mulVec
        ((0 : Matrix (Fin 1) (Fin 2) ℝ).mulVec ![0, 2]) j) = ![0, 2] := by
    funext j
    rw [Matrix.zero_mulVec]
    simp
  rw [hfun]
  unfold pdStd
  rw [Real.sqrt_ne_zero']
  unfold pdVar vecMean
  rw [Fin.sum_univ_two, Fin.sum_univ_two]
  norm_num [Matrix.cons_val_zero, Matrix.cons_val_one, Matrix.head_cons]

end NumerBlocks
